import Mathlib

/-
Verification development for the Neo4j-backed Mastra memory store
(`src/Neo4jStorage.ts`).  The class `Neo4jStorage` persists chat threads,
messages, extracted entities and resources in a Neo4j property graph.
This file gives a shallow embedding of the data model and of the operations
the specification talks about, and proves (or refutes) the specified
properties about that embedding.

Conventions used throughout:
  * Cypher `datetime()` values are modelled as integers (epoch instants);
    `toISOString` / `datetime($s)` round-tripping is the identity on them.
  * JavaScript numbers used as confidences (0.9, 0.8, ...) are modelled as
    rationals, which the decimal literals of the source denote exactly.
  * The property-graph store is modelled by explicit association lists;
    Cypher `MERGE ... ON CREATE ... ON MATCH ...` becomes an upsert on the
    association list.
  * Strings are manipulated through their character lists, so that the
    regular-expression scans of `extractEntities` can be written as
    executable character-level scanners.
-/

set_option autoImplicit false
set_option maxRecDepth 10000

/-! ## Basic character and list helpers -/

/-- Character-level case fold used by the case-insensitive regular
expressions of `extractEntities` (`/.../gi`). -/
def lowerChar (c : Char) : Char :=
  if 'A' ≤ c ∧ c ≤ 'Z' then Char.ofNat (c.toNat + 32) else c

/-- Lower-case an entire character list (JavaScript `toLowerCase`). -/
def lowerList (cs : List Char) : List Char := cs.map lowerChar

/-- Uppercase latin letter, as used by the `[A-Z]` character class. -/
def isUpperC (c : Char) : Bool := 'A' ≤ c ∧ c ≤ 'Z'

/-- Lowercase latin letter, as used by the `[a-z]` character class. -/
def isLowerC (c : Char) : Bool := 'a' ≤ c ∧ c ≤ 'z'

/-- Decimal digit, part of the `\w` class backing `\b`. -/
def isDigitC (c : Char) : Bool := '0' ≤ c ∧ c ≤ '9'

/-- JavaScript word character (`\w`), which defines the word boundaries
`\b` of the extraction regular expressions. -/
def isWordC (c : Char) : Bool := isUpperC c || isLowerC c || isDigitC c || c = '_'

/-- Whitespace as matched by `\s` (the source texts only use plain spaces,
tabs and newlines). -/
def isSpaceC (c : Char) : Bool := c = ' ' || c = '\t' || c = '\n' || c = '\r'

/-- Does `pre` occur at the head of `cs`? -/
def startsWithL : List Char → List Char → Bool
  | [], _ => true
  | _ :: _, [] => false
  | p :: ps, c :: cs => p = c && startsWithL ps cs

/-- Does `needle` occur as a contiguous sublist of `hay`?  This models
JavaScript `String.prototype.includes`. -/
def hasSub (hay needle : List Char) : Bool :=
  match hay with
  | [] => startsWithL needle []
  | _ :: rest => startsWithL needle hay || hasSub rest needle

/-- Trim leading and trailing whitespace (JavaScript `String.prototype.trim`
restricted to the whitespace characters that occur in the modelled texts). -/
def trimL (cs : List Char) : List Char :=
  ((cs.dropWhile (fun c => isSpaceC c)).reverse.dropWhile (fun c => isSpaceC c)).reverse

/-! ## Entity representation

`extractEntities` (Neo4jStorage.ts, lines 949-993) produces records
`{ type, value, confidence }`; `type` is one of the strings `"Person"`,
`"Topic"`, `"Technology"`, `"Question"`. -/

/-- Record produced by `extractEntities`: a typed, confidence-scored
candidate entity. -/
structure ExtractedEntity where
  type : String
  value : String
  confidence : ℚ
deriving DecidableEq, Repr

/-- Identity of an `Entity` node in the graph: the `(type, value)` pair
(the Cypher `MERGE (e:Entity {type: $type, value: $value})` key). -/
abbrev EntityKey := String × String

/-- Key of an `ExtractedEntity`. -/
def entityKey (e : ExtractedEntity) : EntityKey := (e.type, e.value)

/-! ## Entity node upsert (`createEntityNode`, lines 1008-1036)

The Cypher statement is
  `MERGE (e:Entity {type,value})
   ON CREATE SET e.confidence = $confidence
   ON MATCH  SET e.confidence = CASE WHEN e.confidence < $confidence
                                     THEN $confidence ELSE e.confidence END`.
The store of `Entity` nodes is modelled as an association list from
`EntityKey` to the stored confidence. -/

/-- Store of `Entity` nodes: key to stored confidence. -/
abbrev EStore := List (EntityKey × ℚ)

/-- Confidence reconciliation of the `ON MATCH` clause:
`CASE WHEN old < new THEN new ELSE old END`. -/
def mergeConf (old incoming : ℚ) : ℚ :=
  if old < incoming then incoming else old

/-- Stored confidence of the entity keyed `k`, if present. -/
def lookupE : EStore → EntityKey → Option ℚ
  | [], _ => none
  | (k0, c0) :: rest, k => if k0 = k then some c0 else lookupE rest k

/-- Upsert of `createEntityNode` on the entity store: `ON CREATE` inserts
the incoming confidence, `ON MATCH` applies `mergeConf`. -/
def upsertEntity : EStore → EntityKey → ℚ → EStore
  | [], k, c => [(k, c)]
  | (k0, c0) :: rest, k, c =>
    if k0 = k then (k0, mergeConf c0 c) :: rest
    else (k0, c0) :: upsertEntity rest k c

/-! ## Entity relationships (`createEntityRelationships`, lines 1039-1087)

For a message whose extraction produced `entities`, the source returns
immediately when `entities.length < 2`; otherwise it iterates over all index
pairs `i < j` in loop order and merges one relationship edge per pair.  The
edge label is chosen by the directional rule table of lines 1054-1061 and the
edge confidence is `Math.min(entity1.confidence, entity2.confidence)`,
reconciled on `ON MATCH` by the same raise-only `CASE` as entity
confidences. -/

/-- Directional rule table of `createEntityRelationships` choosing the
relationship label from the two entity types (in extraction order). -/
def relationshipType (t1 t2 : String) : String :=
  if t1 = "Person" ∧ t2 = "Topic" then "INTERESTED_IN"
  else if t1 = "Person" ∧ t2 = "Technology" then "USES"
  else if t1 = "Topic" ∧ t2 = "Technology" then "IMPLEMENTS"
  else "RELATED_TO"

/-- All ordered pairs `(l[i], l[j])` with `i < j`, in the order the double
loop `for i, for j = i+1` visits them. -/
def pairsOf {α : Type} : List α → List (α × α)
  | [] => []
  | x :: rest => rest.map (fun y => (x, y)) ++ pairsOf rest

/-- Identity of a relationship edge: source entity key, target entity key
and label (the Cypher `MERGE (e1)-[r:LABEL]->(e2)` key). -/
abbrev RelKey := EntityKey × EntityKey × String

/-- Relationship-edge key derived from an ordered entity pair. -/
def relKeyOf (e1 e2 : ExtractedEntity) : RelKey :=
  (entityKey e1, entityKey e2, relationshipType e1.type e2.type)

/-- Store of relationship edges: key to stored confidence. -/
abbrev RStore := List (RelKey × ℚ)

/-- Stored confidence of the relationship keyed `k`, if present. -/
def lookupR : RStore → RelKey → Option ℚ
  | [], _ => none
  | (k0, c0) :: rest, k => if k0 = k then some c0 else lookupR rest k

/-- Merge of one relationship edge: `ON CREATE` inserts the incoming
confidence, `ON MATCH` raises the stored one to the maximum. -/
def mergeRel : RStore → RelKey → ℚ → RStore
  | [], k, c => [(k, c)]
  | (k0, c0) :: rest, k, c =>
    if k0 = k then (k0, mergeConf c0 c) :: rest
    else (k0, c0) :: mergeRel rest k c

/-- Graph effect of `createEntityRelationships` on the relationship store:
nothing when fewer than two entities were extracted, otherwise one merge per
ordered pair with the min of the two confidences. -/
def createEntityRelationships (s : RStore) (entities : List ExtractedEntity) : RStore :=
  if entities.length < 2 then s
  else (pairsOf entities).foldl
    (fun st p => mergeRel st (relKeyOf p.1 p.2) (min p.1.confidence p.2.confidence)) s

/-! ## Entity extraction (`extractEntities`, lines 949-993)

The four extraction rules are driven by JavaScript regular expressions; they
are embedded as executable character-level scanners over the message text.
The scanners implement the leftmost-match, greedy, global (`/g`) semantics of
the source patterns; for the capitalized-name pattern the only backtracking
the pattern can perform (dropping trailing `(?:\s+[A-Z][a-z]+)*` iterations
when the final word boundary fails) is implemented explicitly. -/

/-- Apostrophe character, used by the introduction frame of the Person rule. -/
def apos : Char := Char.ofNat 39

/-- String from a character list. -/
def strOf (cs : List Char) : String := String.mk cs

/-- Confidence 0.9 of the Person and Technology rules, in reduced rational
form (so that kernel evaluation does not need `Nat.gcd`). -/
def conf09 : ℚ := Rat.mk' 9 10 (by norm_num) (by norm_num)

/-- Confidence 0.8 of the Topic rule. -/
def conf08 : ℚ := Rat.mk' 4 5 (by norm_num) (by norm_num)

/-- Confidence 0.6 of the Question rule. -/
def conf06 : ℚ := Rat.mk' 3 5 (by norm_num) (by norm_num)

/-- Word-boundary test on the right of a match: the next character, if any,
is not a word character (the trailing `\b`). -/
def boundNext (cs : List Char) : Bool :=
  match cs with
  | [] => true
  | c :: _ => ¬isWordC c

/-- One capitalized word `[A-Z][a-z]+` at the head of the text: an uppercase
letter followed by one or more lowercase letters, greedily. -/
def matchCapWord (cs : List Char) : Option (List Char × List Char) :=
  match cs with
  | [] => none
  | c :: rest =>
    if isUpperC c then
      let lows := rest.takeWhile (fun d => isLowerC d)
      if lows = [] then none
      else some (c :: lows, rest.drop lows.length)
    else none

/-- Cumulative greedy extensions `(?:\s+[A-Z][a-z]+)*` after the first
capitalized word, with the rest of the text after each extension count
(in increasing iteration count). -/
def capExts (fuel : Nat) (cs : List Char) : List (List Char × List Char) :=
  match fuel with
  | 0 => []
  | fuel + 1 =>
    let sp := cs.takeWhile (fun d => isSpaceC d)
    if sp = [] then []
    else
      match matchCapWord (cs.dropWhile (fun d => isSpaceC d)) with
      | none => []
      | some (w, rest) =>
        (sp ++ w, rest) :: (capExts fuel rest).map (fun p => (sp ++ w ++ p.1, p.2))

/-- Global scan of `/\b[A-Z][a-z]+(?:\s+[A-Z][a-z]+)*\b/g` (the name
pattern, line 953): at each left word boundary, match the first word, take
the largest extension count whose right end sits on a word boundary, emit
the match and continue after it. -/
def scanNamesAux (fuel : Nat) (prevWord : Bool) (cs : List Char) : List (List Char) :=
  match fuel with
  | 0 => []
  | fuel + 1 =>
    match cs with
    | [] => []
    | c :: rest =>
      if prevWord then scanNamesAux fuel (isWordC c) rest
      else
        match matchCapWord cs with
        | none => scanNamesAux fuel (isWordC c) rest
        | some (w, r1) =>
          match ((([], r1) :: capExts r1.length r1).filter (fun p => boundNext p.2)).getLast? with
          | none => scanNamesAux fuel (isWordC c) rest
          | some (ext, r2) => (w ++ ext) :: scanNamesAux fuel true r2

/-- All matches of the name pattern in `text` (`text.match(namePattern)`). -/
def nameMatches (text : List Char) : List (List Char) :=
  scanNamesAux text.length false text

/-- Alternatives of the interest marker group, in source order (line 965). -/
def interestMarkers : List (List Char) :=
  ["love".toList, "like".toList, "enjoy".toList, "interested in".toList,
   "passionate about".toList]

/-- Case-insensitive match of the interest pattern
`/(?:love|like|enjoy|interested in|passionate about)\s+([^.!?]+)/gi` at the
head of `cs`: full match text and the rest after it. -/
def interestMatchAt (cs : List Char) : Option (List Char × List Char) :=
  interestMarkers.findSome? fun m =>
    if startsWithL m (lowerList cs) then
      let after := cs.drop m.length
      let sp := after.takeWhile (fun d => isSpaceC d)
      if sp = [] then none
      else
        let afterSp := after.drop sp.length
        let body := afterSp.takeWhile (fun c => ¬(c = '.' ∨ c = '!' ∨ c = '?'))
        if body = [] then none
        else some (cs.take m.length ++ sp ++ body, afterSp.drop body.length)
    else none

/-- Global scan of the interest pattern (`text.match(interestPattern)`). -/
def interestScan (fuel : Nat) (cs : List Char) : List (List Char) :=
  match fuel with
  | 0 => []
  | fuel + 1 =>
    match cs with
    | [] => []
    | _ :: rest =>
      match interestMatchAt cs with
      | some (m, r2) => m :: interestScan fuel r2
      | none => interestScan fuel rest

/-- Global replace of `/(?:love|like|enjoy|interested in|passionate about)\s+/gi`
by the empty string (line 968). -/
def stripMarkers (fuel : Nat) (cs : List Char) : List Char :=
  match fuel with
  | 0 => cs
  | fuel + 1 =>
    match cs with
    | [] => []
    | c :: rest =>
      match (interestMarkers.findSome? fun m =>
        if startsWithL m (lowerList cs) then
          let after := cs.drop m.length
          let sp := after.takeWhile (fun d => isSpaceC d)
          if sp = [] then none else some (after.drop sp.length)
        else none) with
      | some r2 => stripMarkers fuel r2
      | none => c :: stripMarkers fuel rest

/-- Topic candidate derived from one interest match: markers stripped, then
trimmed (line 968). -/
def topicOf (m : List Char) : List Char := trimL (stripMarkers m.length m)

/-- Technology vocabulary of the pattern
`/\b(?:graph database|neo4j|database|AI|machine learning|python|javascript|typescript|react|node\.?js)\b/gi`,
lower-cased, in alternation order (`node\.?js` contributes its greedy
`node.js` form before `nodejs`). -/
def techVocab : List (List Char) :=
  ["graph database".toList, "neo4j".toList, "database".toList, "ai".toList,
   "machine learning".toList, "python".toList, "javascript".toList,
   "typescript".toList, "react".toList, "node.js".toList, "nodejs".toList]

/-- Length of the technology alternative matching at the head of `cs` with a
word boundary on its right, if any (alternatives tried in order). -/
def techMatchAt (cs : List Char) : Option Nat :=
  techVocab.findSome? fun m =>
    if startsWithL m (lowerList cs) ∧ boundNext (cs.drop m.length) then some m.length
    else none

/-- Global scan of the technology pattern; every alternative ends in a word
character, so scanning continues in word-interior state after a match. -/
def techScan (fuel : Nat) (prevWord : Bool) (cs : List Char) : List (List Char) :=
  match fuel with
  | 0 => []
  | fuel + 1 =>
    match cs with
    | [] => []
    | c :: rest =>
      if prevWord then techScan fuel (isWordC c) rest
      else
        match techMatchAt cs with
        | some len => cs.take len :: techScan fuel true (cs.drop len)
        | none => techScan fuel (isWordC c) rest

/-- All matches of the technology pattern in `text`. -/
def techMatches (text : List Char) : List (List Char) :=
  techScan text.length false text

/-- Common-word denylist of `isCommonWord` (line 997). -/
def commonWords : List (List Char) :=
  ["The".toList, "This".toList, "That".toList, "There".toList, "Here".toList,
   "Hello".toList, "Hi".toList, "Yes".toList, "No".toList, "Thank".toList,
   "Please".toList]

/-- Pronoun denylist of `isPronoun` (line 1003). -/
def pronounWords : List (List Char) :=
  ["They".toList, "What".toList, "Could".toList, "Would".toList,
   "Should".toList, "Will".toList, "Can".toList, "May".toList,
   "Might".toList, "Must".toList, "Shall".toList]

/-- Interrogative words of the Question rule (line 985). -/
def questionWords : List (List Char) :=
  ["what".toList, "how".toList, "why".toList, "when".toList,
   "where".toList, "who".toList]

/-- Introduction frames of the Person rule (line 958): the name is accepted
only when `name is X`, `I'm X` or `call me X` occurs in the text. -/
def inIntroFrame (text name : List Char) : Bool :=
  hasSub text ("name is ".toList ++ name)
    || hasSub text ('I' :: apos :: 'm' :: ' ' :: name)
    || hasSub text ("call me ".toList ++ name)

/-- Shallow embedding of `extractEntities` (lines 949-993): Person, Topic,
Technology and Question candidates, in source push order. -/
def extractEntities (text : List Char) : List ExtractedEntity :=
  let persons := (nameMatches text).filterMap fun name =>
    if name.length > 2 ∧ ¬(commonWords.contains name) ∧ ¬(pronounWords.contains name)
        ∧ inIntroFrame text name = true
    then some ⟨"Person", strOf name, conf09⟩ else none
  let topics := (interestScan text.length text).filterMap fun m =>
    let topic := topicOf m
    if topic.length > 2 ∧ topic.length < 50
        ∧ ¬(hasSub topic "to discuss".toList) ∧ ¬(hasSub topic "about them".toList)
    then some ⟨"Topic", strOf topic, conf08⟩ else none
  let techs := (techMatches text).map fun m =>
    ⟨"Technology", strOf (lowerList m), conf09⟩
  let questions :=
    if text.contains '?'
        ∧ questionWords.any (fun w => hasSub (lowerList text) w)
    then [ExtractedEntity.mk "Question" (strOf (text.take 50 ++ "...".toList)) conf06]
    else []
  persons ++ topics ++ techs ++ questions

/-- Mention edges written by `createEntityNode` (line 1023): one
`MENTIONS` edge per extracted entity, carrying the extraction confidence. -/
def mentionEdges (msgId : String) (es : List ExtractedEntity) : List (String × EntityKey × ℚ) :=
  es.map fun e => (msgId, entityKey e, e.confidence)

/-! ## Thread and message graph model

Nodes carry the properties their Cypher `CREATE` statements set; `datetime`
properties are modelled as integer instants.  The graph holds the node
lists and the `CONTAINS` and `MENTIONS` edge lists. -/

/-- Thread node properties (`createThread`, lines 566-586). -/
structure ThreadNode where
  id : String
  resourceId : String
  title : String
  createdAt : Int
  updatedAt : Int
  metadata : String
deriving DecidableEq, Repr

/-- Message node properties (`createMessage`, lines 794-816). -/
structure MessageNode where
  id : String
  threadId : String
  role : String
  content : String
  createdAt : Int
  metadata : String
deriving DecidableEq, Repr

/-- Property graph state: node lists plus `CONTAINS` (threadId, messageId)
and `MENTIONS` (messageId, entity key, confidence) edge lists. -/
structure Graph where
  threads : List ThreadNode
  messages : List MessageNode
  contains : List (String × String)
  mentions : List (String × EntityKey × ℚ)
deriving DecidableEq, Repr

/-- Insertion of a message into a list ordered by `createdAt` ascending. -/
def insertByCreated (m : MessageNode) : List MessageNode → List MessageNode
  | [] => [m]
  | x :: xs =>
    if m.createdAt ≤ x.createdAt then m :: x :: xs else x :: insertByCreated m xs

/-- Messages sorted by `createdAt` ascending (the `ORDER BY m.createdAt ASC`
of the read queries). -/
def sortByCreated (ms : List MessageNode) : List MessageNode :=
  ms.foldr insertByCreated []

/-- Messages owned by thread `tid` through a `CONTAINS` edge
(`MATCH (t:Thread {id: $threadId})-[r:CONTAINS]->(m:Message)`). -/
def threadMessages (g : Graph) (tid : String) : List MessageNode :=
  g.messages.filter fun m => (g.contains.contains (tid, m.id) : Bool)

/-- Effective limit of `getMessagesByThreadId` (line 835): JavaScript
`options?.limit || 100`, so an absent limit and a zero limit both fall back
to the default 100. -/
def effLimit (o : Option Nat) : Nat :=
  match o with
  | some n => if n = 0 then 100 else n
  | none => 100

/-- Effective offset of `getMessagesByThreadId` (line 836):
`options?.offset || 0`. -/
def effOffset (o : Option Nat) : Nat :=
  match o with
  | some n => n
  | none => 0

/-- Shallow embedding of `getMessagesByThreadId` (lines 831-853): ordered
containment traversal with `SKIP` and `LIMIT`. -/
def getMessagesByThreadId (g : Graph) (tid : String) (limit offset : Option Nat) :
    List MessageNode :=
  ((sortByCreated (threadMessages g tid)).drop (effOffset offset)).take (effLimit limit)

/-- Argument `selectBy.last` of the facade `getMessages`: absent, a number,
or the literal `false`. -/
inductive MessageLast where
  | undef : MessageLast
  | num : Nat → MessageLast
  | fls : MessageLast
deriving DecidableEq, Repr

/-- Limit computation inlined in `getMessages` (line 452):
`typeof last === "number" ? last : 100`.  The `false` sentinel falls into
the default branch. -/
def getMessagesLimit (last : MessageLast) : Nat :=
  match last with
  | MessageLast.num n => n
  | _ => 100

/-- Helper `resolveMessageLimit` (lines 101-105), which the class defines
for the `last` argument but `getMessages` never calls:
`last === false` gives 0, a number gives itself, otherwise the default. -/
def resolveMessageLimit (last : MessageLast) (defaultLimit : Nat) : Nat :=
  match last with
  | MessageLast.fls => 0
  | MessageLast.num n => n
  | MessageLast.undef => defaultLimit

/-- Shallow embedding of the facade `getMessages` (lines 425-460): it
computes the limit inline from `selectBy.last` and delegates to
`getMessagesByThreadId` with no offset. -/
def getMessages (g : Graph) (tid : String) (last : MessageLast) : List MessageNode :=
  getMessagesByThreadId g tid (some (getMessagesLimit last)) none

/-- Shallow embedding of `getMessagesById` (lines 527-546): empty id list
short-circuits, otherwise id-filtered messages ordered by `createdAt`. -/
def getMessagesById (g : Graph) (ids : List String) : List MessageNode :=
  if ids.isEmpty then []
  else sortByCreated (g.messages.filter fun m => (ids.contains m.id : Bool))

/-- Shallow embedding of `deleteThreadById` (lines 733-747):
`MATCH (t:Thread {id: $threadId}) DETACH DELETE t` removes the matched
thread nodes and the edges incident to them (their `CONTAINS` edges); no
other node or edge is touched. -/
def deleteThreadById (g : Graph) (tid : String) : Graph :=
  { threads := g.threads.filter fun t => t.id ≠ tid
    messages := g.messages
    contains := g.contains.filter fun e => e.1 ≠ tid
    mentions := g.mentions }

/-! ## Write-path failure model (`createMessage`, lines 749-829)

`createMessage` merges the thread, creates the message node with its
`CONTAINS` edge, and only then calls `createMessageEntities`.  Each
`createEntityNode` call wraps its own statement in `try/catch` (lines
1013-1035), so one failed entity write is logged and the loop continues.
`createEntityRelationships` wraps the whole double pair loop in one
`try/catch` (lines 1046-1086), so the first failed pair write aborts the
remaining pairs (but not the message).  The model records which writes are
attempted, as a trace, under an arbitrary failure oracle. -/

/-- Graph writes attempted by one `createMessage` call. -/
inductive WOp where
  | mergeThread : WOp
  | createMsg : WOp
  | entityW : Nat → WOp
  | relW : Nat → Nat → WOp
deriving DecidableEq, Repr

/-- Pairs attempted by the relationship double loop under failure oracle
`failR`: the loop body throws on the first failing pair and the exception
leaves the loop for the surrounding catch, so later pairs are skipped. -/
def relAttempts (failR : Nat → Nat → Bool) : List (Nat × Nat) → List (Nat × Nat)
  | [] => []
  | p :: ps => if failR p.1 p.2 then [p] else p :: relAttempts failR ps

/-- Trace of writes attempted by `createMessage` for a message whose
extraction produced `n` entities, and whether the call returns the created
message: the thread merge and message/containment write come first; if the
message write fails the call throws before any entity linking; otherwise
every entity write is attempted regardless of `failE` (per-entity catch),
and the pair writes follow `relAttempts`. -/
def createMessageRun (n : Nat) (failMsg : Bool) (failR : Nat → Nat → Bool) :
    List WOp × Bool :=
  if failMsg then ([WOp.mergeThread, WOp.createMsg], false)
  else
    ([WOp.mergeThread, WOp.createMsg]
      ++ (List.range n).map WOp.entityW
      ++ (relAttempts failR (pairsOf (List.range n))).map (fun p => WOp.relW p.1 p.2),
     true)

/-! ## Schema bootstrap (`initialize`, lines 25-60)

The method returns immediately when the in-memory flag `_hasInitialized` is
set; otherwise it runs five constraint/index statements in order inside a
`try/finally`.  A statement failure propagates (the `finally` only closes
the session) and skips the flag assignment, which is the last statement of
the `try` block. -/

/-- The five schema statements, in source order. -/
inductive SchemaStmt where
  | threadIdUnique : SchemaStmt
  | messageIdUnique : SchemaStmt
  | idxThreadResourceId : SchemaStmt
  | idxMessageThreadId : SchemaStmt
  | idxMessageCreatedAt : SchemaStmt
deriving DecidableEq, Repr

/-- Statement order of `initialize`. -/
def initStatements : List SchemaStmt :=
  [SchemaStmt.threadIdUnique, SchemaStmt.messageIdUnique,
   SchemaStmt.idxThreadResourceId, SchemaStmt.idxMessageThreadId,
   SchemaStmt.idxMessageCreatedAt]

/-- Sequential statement execution: statements run in order until the first
failure; returns the statements issued and whether all succeeded. -/
def runStmts (fail : SchemaStmt → Bool) : List SchemaStmt → List SchemaStmt × Bool
  | [] => ([], true)
  | s :: rest =>
    if fail s then ([s], false)
    else
      let r := runStmts fail rest
      (s :: r.1, r.2)

/-- Shallow embedding of `initialize`: given the current flag and a failure
oracle, returns the new flag value, the statements issued, and whether the
call returned normally (`false` means the failure propagated). -/
def initializeOp (flag : Bool) (fail : SchemaStmt → Bool) : Bool × List SchemaStmt × Bool :=
  if flag then (true, [], true)
  else
    ((runStmts fail initStatements).2, (runStmts fail initStatements).1,
     (runStmts fail initStatements).2)

/-! ## Session lifecycle model (claim sources: `getThreadById`, lines
594-614, and `healthCheck`, lines 1239-1248)

`getThreadById` acquires its session, runs its statement inside `try` and
closes the session in `finally`, so the close happens on success, on the
empty-result path and on a thrown failure alike.  `healthCheck` has no
`finally`: the close is a plain statement after the probe query inside the
`try`, and the `catch` only converts the failure to `false`. -/

/-- Session events of one operation. -/
inductive SEv where
  | acquire : SEv
  | runQ : SEv
  | closeS : SEv
deriving DecidableEq, Repr

/-- Trace and outcome of `getThreadById` under a run-failure oracle and a
found/not-found oracle: (events, threw, returned-null).  The `finally`
close is emitted on every path. -/
def getThreadByIdRun (failRun : Bool) (found : Bool) : List SEv × Bool × Bool :=
  if failRun then ([SEv.acquire, SEv.runQ, SEv.closeS], true, false)
  else if found then ([SEv.acquire, SEv.runQ, SEv.closeS], false, false)
  else ([SEv.acquire, SEv.runQ, SEv.closeS], false, true)

/-- Trace and boolean result of `healthCheck` under a run-failure oracle:
on failure the `catch` returns `false` before the close statement is ever
reached. -/
def healthCheckRun (failRun : Bool) : List SEv × Bool :=
  if failRun then ([SEv.acquire, SEv.runQ], false)
  else ([SEv.acquire, SEv.runQ, SEv.closeS], true)

/-- A trace is release-balanced when it closes as many sessions as it
acquires. -/
def sessionBalanced (t : List SEv) : Bool :=
  t.count SEv.acquire = t.count SEv.closeS

/-! ## Metadata JSON encoding (`createThread` line 584, `mapNeo4jNodeToThread`
line 1099)

Thread metadata is written through `JSON.stringify` and read back through
`JSON.parse`.  The metadata maps the repository actually stores (its tests
and tools use flat objects with string values) are modelled as association
lists of strings, and the relevant fragment of the two external JSON
functions is implemented executably: `stringifyObj` places each entry as
`"key":"value"` between braces, `parseObj` inverts it.  Keys and values are
restricted to characters `JSON.stringify` leaves unescaped. -/

/-- Double-quote character. -/
def quoteC : Char := Char.ofNat 34

/-- Opening brace character. -/
def lbraceC : Char := Char.ofNat 123

/-- Closing brace character. -/
def rbraceC : Char := Char.ofNat 125

/-- Characters `JSON.stringify` emits unescaped inside a string literal. -/
def jsonPlain (cs : List Char) : Bool :=
  cs.all fun c => c ≠ quoteC ∧ c ≠ '\\' ∧ 32 ≤ c.toNat

/-- Flat metadata object: string keys to string values. -/
abbrev JObj := List (List Char × List Char)

/-- All keys and values of the object are escape-free. -/
def jsonPlainObj (m : JObj) : Bool :=
  m.all fun f => jsonPlain f.1 && jsonPlain f.2

/-- One `"key":"value"` field. -/
def encodeField (f : List Char × List Char) : List Char :=
  quoteC :: (f.1 ++ quoteC :: ':' :: quoteC :: (f.2 ++ [quoteC]))

/-- Comma-separated fields. -/
def encodeFields : JObj → List Char
  | [] => []
  | [f] => encodeField f
  | f :: g :: rest => encodeField f ++ ',' :: encodeFields (g :: rest)

/-- Fragment of `JSON.stringify` for flat string objects. -/
def stringifyObj (m : JObj) : List Char :=
  lbraceC :: (encodeFields m ++ [rbraceC])

/-- Consume a string body up to its closing quote. -/
def takeStr : List Char → Option (List Char × List Char)
  | [] => none
  | c :: rest =>
    if c = quoteC then some ([], rest)
    else (takeStr rest).map fun p => (c :: p.1, p.2)

/-- Parse a nonempty field sequence terminated by the closing brace. -/
def parseFieldsF : Nat → List Char → Option JObj
  | 0, _ => none
  | fuel + 1, cs =>
    match cs with
    | [] => none
    | c :: cs1 =>
      if c = quoteC then
        match takeStr cs1 with
        | none => none
        | some (k, cs2) =>
          match cs2 with
          | ':' :: c2 :: cs3 =>
            if c2 = quoteC then
              match takeStr cs3 with
              | none => none
              | some (v, cs4) =>
                match cs4 with
                | ',' :: cs5 => (parseFieldsF fuel cs5).map fun r => (k, v) :: r
                | [c3] => if c3 = rbraceC then some [(k, v)] else none
                | _ => none
            else none
          | _ => none
      else none

/-- Fragment of `JSON.parse` for flat string objects. -/
def parseObj (cs : List Char) : Option JObj :=
  match cs with
  | [] => none
  | c :: rest =>
    if c = lbraceC then
      if rest = [rbraceC] then some []
      else parseFieldsF rest.length rest
    else none

/-! ## Thread creation and mapping (`createThread`, lines 552-592, and
`mapNeo4jNodeToThread`, lines 1090-1101) -/

/-- Caller-supplied thread argument: every field optional, as in the
untyped `thread` object of `createThread`. -/
structure ThreadInput where
  id : Option String
  resourceId : Option String
  title : Option String
  createdAt : Option Int
  updatedAt : Option Int
  metadata : Option JObj
deriving Repr

/-- Node properties written by `createThread`: each field defaulted as in
lines 557-564 (`freshId` stands for the generated `thread_..._...` id),
metadata written through `JSON.stringify`. -/
def createThreadNode (now : Int) (freshId : String) (t : ThreadInput) : ThreadNode :=
  { id := t.id.getD freshId
    resourceId := t.resourceId.getD "default"
    title := t.title.getD "Untitled Thread"
    createdAt := t.createdAt.getD now
    updatedAt := t.updatedAt.getD now
    metadata := strOf (stringifyObj (t.metadata.getD [])) }

/-- Domain thread produced by `mapNeo4jNodeToThread`; `metadata` is the
`JSON.parse` result (`none` models a parse exception, `some []` the falsy
default of line 1099). -/
structure MappedThread where
  id : String
  resourceId : String
  title : String
  createdAt : Int
  updatedAt : Int
  metadata : Option JObj
deriving Repr

/-- Shallow embedding of `mapNeo4jNodeToThread`. -/
def mapNeo4jNodeToThread (n : ThreadNode) : MappedThread :=
  { id := n.id
    resourceId := n.resourceId
    title := n.title
    createdAt := n.createdAt
    updatedAt := n.updatedAt
    metadata := if n.metadata = "" then some [] else parseObj n.metadata.toList }

/-- Graph effect of `createThread`: append the node; the call returns the
mapped node. -/
def createThreadG (g : Graph) (now : Int) (freshId : String) (t : ThreadInput) :
    Graph × MappedThread :=
  let node := createThreadNode now freshId t
  ({ g with threads := g.threads ++ [node] }, mapNeo4jNodeToThread node)

/-- Shallow embedding of `getThreadById` (lines 594-614): first matched
thread node, mapped; `none` is the not-found result. -/
def getThreadByIdG (g : Graph) (tid : String) : Option MappedThread :=
  (g.threads.find? fun t => t.id = tid).map mapNeo4jNodeToThread

/-! ## Field updates (`updateThread` lines 705-731, `updateMessage` lines
855-881, `updateResource` lines 1184-1210)

Each update builds its `SET` clause from `Object.keys(updates)` with the
`"id"` key filtered out, so the `SET` never assigns the id property.
`updateThread` and `updateResource` additionally set `updatedAt` to the
current store time.  Records are modelled as property lists. -/

/-- Property value of a node. -/
inductive PVal where
  | s : String → PVal
  | n : Int → PVal
  | b : Bool → PVal
deriving DecidableEq, Repr

/-- Property record of a node. -/
abbrev PropRec := List (String × PVal)

/-- Cypher `SET node.k = v`: overwrite or add the property. -/
def setProp : PropRec → String → PVal → PropRec
  | [], k, v => [(k, v)]
  | (k0, v0) :: rest, k, v =>
    if k0 = k then (k0, v) :: rest else (k0, v0) :: setProp rest k v

/-- Property read. -/
def getProp : PropRec → String → Option PVal
  | [], _ => none
  | (k0, v0) :: rest, k => if k0 = k then some v0 else getProp rest k

/-- The `.filter((key) => key !== "id")` applied to the updates object
before the `SET` clause is built. -/
def filterIdKey (updates : PropRec) : PropRec :=
  updates.filter fun kv => kv.1 ≠ "id"

/-- Application of a `SET` clause: one assignment per update entry. -/
def applySet (p : PropRec) (us : PropRec) : PropRec :=
  us.foldl (fun acc kv => setProp acc kv.1 kv.2) p

/-- Shallow embedding of the `SET` clause of `updateThread` (line 717). -/
def updateThreadSet (p : PropRec) (now : Int) (us : PropRec) : PropRec :=
  setProp (applySet p (filterIdKey us)) "updatedAt" (PVal.n now)

/-- Shallow embedding of the `SET` clause of `updateMessage` (line 867). -/
def updateMessageSet (p : PropRec) (us : PropRec) : PropRec :=
  applySet p (filterIdKey us)

/-- Shallow embedding of the `SET` clause of `updateResource` (line 1196). -/
def updateResourceSet (p : PropRec) (now : Int) (us : PropRec) : PropRec :=
  setProp (applySet p (filterIdKey us)) "updatedAt" (PVal.n now)

/-! ## Concrete fixtures used by the claim theorems -/

/-- Thread node with id `t1`. -/
def thrA : ThreadNode :=
  { id := "t1", resourceId := "default", title := "T", createdAt := 0, updatedAt := 0,
    metadata := "" }

/-- Message node `m1` owned by thread `t1`. -/
def msgA : MessageNode :=
  { id := "m1", threadId := "t1", role := "user", content := "hello there",
    createdAt := 1, metadata := "" }

/-- Graph holding one thread that contains one message. -/
def gOneMsg : Graph :=
  { threads := [thrA], messages := [msgA], contains := [("t1", "m1")], mentions := [] }

/-- Failure oracle failing exactly the first relationship pair (0,1). -/
def failR01 : Nat → Nat → Bool := fun i j => (i == 0) && (j == 1)

/-- Message text of the extraction scenario. -/
def dawnText : List Char := "Hi, my name is Dawn and I love graph databases.".toList

/-- Person entity the scenario expects. -/
def dawnPerson : ExtractedEntity :=
  { type := "Person", value := "Dawn", confidence := conf09 }

/-- Topic entity the scenario expects. -/
def dawnTopic : ExtractedEntity :=
  { type := "Topic", value := "graph databases", confidence := conf08 }

/-- Metadata object of the round-trip scenario. -/
def fooBarMeta : JObj := [("foo".toList, "bar".toList)]

/-- Thread argument with caller-supplied timestamps in the wrong order. -/
def badThreadInput : ThreadInput :=
  { id := some "t1", resourceId := none, title := none,
    createdAt := some 5, updatedAt := some 3, metadata := some fooBarMeta }

/-- Thread argument of the round-trip scenario: only metadata supplied. -/
def goodThreadInput : ThreadInput :=
  { id := some "t1", resourceId := none, title := none,
    createdAt := none, updatedAt := none, metadata := some fooBarMeta }

/-- Graph with no nodes. -/
def gEmpty : Graph :=
  { threads := [], messages := [], contains := [], mentions := [] }

/-! ## Helper lemmas -/

theorem mergeConf_eq_max (old incoming : ℚ) : mergeConf old incoming = max old incoming := by
  unfold mergeConf
  rcases lt_or_ge old incoming with h | h
  · simp [h, max_eq_right (le_of_lt h)]
  · simp [not_lt.mpr h, max_eq_left h]

theorem lookupE_upsertEntity_self (s : EStore) (k : EntityKey) (c : ℚ) :
    lookupE (upsertEntity s k c) k =
      some (match lookupE s k with
            | none => c
            | some o => mergeConf o c) := by
  induction s with
  | nil => simp [upsertEntity, lookupE]
  | cons hd tl ih =>
    obtain ⟨k0, c0⟩ := hd
    by_cases h : k0 = k
    · simp [upsertEntity, lookupE, h]
    · simp [upsertEntity, lookupE, h, ih]

theorem lookupR_mergeRel_self (s : RStore) (k : RelKey) (c : ℚ) :
    lookupR (mergeRel s k c) k =
      some (match lookupR s k with
            | none => c
            | some o => mergeConf o c) := by
  induction s with
  | nil => simp [mergeRel, lookupR]
  | cons hd tl ih =>
    obtain ⟨k0, c0⟩ := hd
    by_cases h : k0 = k
    · simp [mergeRel, lookupR, h]
    · simp [mergeRel, lookupR, h, ih]

theorem lookupR_mergeRel_mono (s : RStore) (k k2 : RelKey) (c o : ℚ)
    (h : lookupR s k = some o) :
    ∃ n, lookupR (mergeRel s k2 c) k = some n ∧ o ≤ n := by
  induction s with
  | nil => simp [lookupR] at h
  | cons hd tl ih =>
    obtain ⟨k0, c0⟩ := hd
    by_cases hk2 : k0 = k
    · subst hk2
      have hco : c0 = o := by simpa [lookupR] using h
      subst hco
      by_cases hk : k0 = k2
      · subst hk
        refine ⟨mergeConf c0 c, ?_, ?_⟩
        · simp [mergeRel, lookupR]
        · rw [mergeConf_eq_max]
          exact le_max_left _ _
      · refine ⟨c0, ?_, le_refl _⟩
        simp [mergeRel, lookupR, hk]
    · have h2 : lookupR tl k = some o := by simpa [lookupR, hk2] using h
      by_cases hk : k0 = k2
      · subst hk
        refine ⟨o, ?_, le_refl _⟩
        simp [mergeRel, lookupR, hk2, h2]
      · obtain ⟨n, hn, hon⟩ := ih h2
        refine ⟨n, ?_, hon⟩
        simp [mergeRel, lookupR, hk, hk2, hn]

/-- Folding merges over any pair list never lowers a stored confidence. -/
theorem lookupR_foldl_mono (ps : List (ExtractedEntity × ExtractedEntity))
    (s : RStore) (k : RelKey) (o : ℚ) (h : lookupR s k = some o) :
    ∃ n, lookupR (ps.foldl
      (fun st p => mergeRel st (relKeyOf p.1 p.2) (min p.1.confidence p.2.confidence)) s) k
      = some n ∧ o ≤ n := by
  induction ps generalizing s o with
  | nil => exact ⟨o, h, le_refl o⟩
  | cons p rest ih =>
    obtain ⟨n1, hn1, hon1⟩ :=
      lookupR_mergeRel_mono s k (relKeyOf p.1 p.2) (min p.1.confidence p.2.confidence) o h
    obtain ⟨n2, hn2, hn12⟩ := ih _ _ hn1
    exact ⟨n2, hn2, le_trans hon1 hn12⟩

/-- After folding over a pair list containing `p`, the edge keyed by `p` is
stored with confidence at least the min of the two entity confidences. -/
theorem lookupR_foldl_mem (ps : List (ExtractedEntity × ExtractedEntity))
    (s : RStore) (p : ExtractedEntity × ExtractedEntity) (hp : p ∈ ps) :
    ∃ n, lookupR (ps.foldl
      (fun q st => mergeRel q (relKeyOf st.1 st.2) (min st.1.confidence st.2.confidence)) s)
      (relKeyOf p.1 p.2) = some n ∧ min p.1.confidence p.2.confidence ≤ n := by
  induction ps generalizing s with
  | nil => cases hp
  | cons q rest ih =>
    rcases List.mem_cons.mp hp with hq | hmem
    · subst hq
      rw [List.foldl_cons]
      have hself := lookupR_mergeRel_self s (relKeyOf p.1 p.2) (min p.1.confidence p.2.confidence)
      rcases hlk : lookupR s (relKeyOf p.1 p.2) with _ | o
      · rw [hlk] at hself
        have hself2 : lookupR (mergeRel s (relKeyOf p.1 p.2) (min p.1.confidence p.2.confidence))
            (relKeyOf p.1 p.2) = some (min p.1.confidence p.2.confidence) := hself
        exact lookupR_foldl_mono rest _ _ _ hself2
      · rw [hlk] at hself
        have hself2 : lookupR (mergeRel s (relKeyOf p.1 p.2) (min p.1.confidence p.2.confidence))
            (relKeyOf p.1 p.2)
            = some (mergeConf o (min p.1.confidence p.2.confidence)) := hself
        obtain ⟨n, hn, hmn⟩ := lookupR_foldl_mono rest _ _ _ hself2
        refine ⟨n, hn, le_trans ?_ hmn⟩
        rw [mergeConf_eq_max]
        exact le_max_right o _
    · rw [List.foldl_cons]
      exact ih _ hmem

/-- Membership of the index pair `(l[i], l[j])`, `i < j`, in `pairsOf l`. -/
theorem pairsOf_mem_of_lt {α : Type} (l : List α) (i j : Nat)
    (hij : i < j) (hj : j < l.length) :
    (l.get ⟨i, lt_trans hij hj⟩, l.get ⟨j, hj⟩) ∈ pairsOf l := by
  induction l generalizing i j with
  | nil => simp at hj
  | cons x rest ih =>
    cases i with
    | zero =>
      cases j with
      | zero => omega
      | succ j0 =>
        apply List.mem_append_left
        have hj2 : j0 < rest.length := by simpa using hj
        refine List.mem_map.mpr ⟨rest.get ⟨j0, hj2⟩, List.get_mem rest j0 hj2, ?_⟩
        rfl
    | succ i0 =>
      cases j with
      | zero => omega
      | succ j0 =>
        apply List.mem_append_right
        have hmem := ih i0 j0 (by omega) (by simpa using hj)
        exact hmem


theorem find?_append_single {α : Type} (l : List α) (a : α) (p : α → Bool)
    (hl : ∀ x ∈ l, p x = false) :
    (l ++ [a]).find? p = if p a then some a else none := by
  induction l with
  | nil => cases hp : p a <;> simp [List.find?, hp]
  | cons x xs ih =>
    have hx : p x = false := hl x (List.mem_cons_self x xs)
    have hxs : ∀ y ∈ xs, p y = false := fun y hy => hl y (List.mem_cons_of_mem x hy)
    simp [List.find?, hx, ih hxs]

theorem runStmts_snd (fail : SchemaStmt → Bool) (l : List SchemaStmt) :
    (runStmts fail l).2 = (l.all fun s => !fail s) := by
  induction l with
  | nil => simp [runStmts]
  | cons s rest ih =>
    by_cases h : fail s
    · simp [runStmts, h]
    · simp [runStmts, h, ih]

theorem runStmts_fst_of_ok (fail : SchemaStmt → Bool) (l : List SchemaStmt)
    (h : ∀ s ∈ l, fail s = false) :
    (runStmts fail l).1 = l := by
  induction l with
  | nil => simp [runStmts]
  | cons s rest ih =>
    have hs : fail s = false := h s (List.mem_cons_self s rest)
    have hrest : ∀ x ∈ rest, fail x = false := fun x hx => h x (List.mem_cons_of_mem s hx)
    simp [runStmts, hs, ih hrest]

theorem getProp_setProp_ne (p : PropRec) (k k2 : String) (v : PVal) (h : k2 ≠ k) :
    getProp (setProp p k v) k2 = getProp p k2 := by
  have hkk : ¬k = k2 := fun hc => h hc.symm
  induction p with
  | nil => simp [setProp, getProp, hkk]
  | cons hd tl ih =>
    obtain ⟨k0, v0⟩ := hd
    by_cases hk0 : k0 = k
    · subst hk0
      simp [setProp, getProp, hkk]
    · by_cases hk02 : k0 = k2
      · subst hk02
        simp [setProp, getProp, hk0]
      · simp [setProp, getProp, hk0, hk02, ih]

theorem getProp_applySet_ne (us : PropRec) (p : PropRec) (k : String)
    (h : ∀ kv ∈ us, kv.1 ≠ k) :
    getProp (applySet p us) k = getProp p k := by
  induction us generalizing p with
  | nil => simp [applySet]
  | cons kv rest ih =>
    have hkv : kv.1 ≠ k := h kv (List.mem_cons_self kv rest)
    have hrest : ∀ x ∈ rest, x.1 ≠ k := fun x hx => h x (List.mem_cons_of_mem kv hx)
    have hstep : applySet p (kv :: rest) = applySet (setProp p kv.1 kv.2) rest := rfl
    rw [hstep, ih _ hrest, getProp_setProp_ne _ _ _ _ (fun hc => hkv hc.symm)]

theorem filterIdKey_no_id (us : PropRec) : ∀ kv ∈ filterIdKey us, kv.1 ≠ "id" := by
  intro kv hkv
  have := List.mem_filter.mp hkv
  simpa using this.2

/-! ## Round-trip lemmas for the metadata encoding -/

theorem takeStr_append (k rest : List Char) (hk : jsonPlain k = true) :
    takeStr (k ++ quoteC :: rest) = some (k, rest) := by
  induction k with
  | nil => simp [takeStr]
  | cons c cs ih =>
    have hc : c ≠ quoteC := by
      have := hk
      simp [jsonPlain] at this
      exact this.1.1
    have hcs : jsonPlain cs = true := by
      have := hk
      simp [jsonPlain] at this ⊢
      exact this.2
    simp [takeStr, hc, ih hcs]

theorem encodeFields_length_ge (m : JObj) : m.length ≤ (encodeFields m).length := by
  induction m with
  | nil => simp [encodeFields]
  | cons f m2 ih =>
    cases m2 with
    | nil => simp [encodeFields, encodeField]
    | cons g m3 =>
      have h1 : 1 ≤ (encodeField f).length := by simp [encodeField]
      have h2 : encodeFields (f :: g :: m3) = encodeField f ++ ',' :: encodeFields (g :: m3) :=
        rfl
      rw [h2, List.length_append]
      simp only [List.length_cons] at ih ⊢
      omega

theorem parseFieldsF_encode (m : JObj) (fuel : Nat) (hne : m ≠ [])
    (hplain : jsonPlainObj m = true) (hfuel : m.length ≤ fuel) :
    parseFieldsF fuel (encodeFields m ++ [rbraceC]) = some m := by
  induction m generalizing fuel with
  | nil => exact absurd rfl hne
  | cons f m2 ih =>
    obtain ⟨fuel0, rfl⟩ : ∃ fuel0, fuel = fuel0 + 1 := by
      cases fuel with
      | zero => simp at hfuel
      | succ n => exact ⟨n, rfl⟩
    have hsplit : jsonPlain f.1 = true ∧ jsonPlain f.2 = true ∧ jsonPlainObj m2 = true := by
      have h := hplain
      simp only [jsonPlainObj, List.all_cons, Bool.and_eq_true] at h
      exact ⟨h.1.1, h.1.2, h.2⟩
    obtain ⟨hf1, hf2, hm2⟩ := hsplit
    cases m2 with
    | nil =>
      simp only [encodeFields, encodeField, List.cons_append, List.append_assoc,
        List.nil_append]
      simp only [parseFieldsF, if_pos rfl]
      rw [takeStr_append f.1 _ hf1]
      simp only
      rw [takeStr_append f.2 _ hf2]
      rfl
    | cons g m3 =>
      have hfuel2 : (g :: m3).length ≤ fuel0 := by
        simp only [List.length_cons] at hfuel ⊢
        omega
      simp only [encodeFields, encodeField, List.cons_append, List.append_assoc,
        List.nil_append]
      simp only [parseFieldsF, if_pos rfl]
      rw [takeStr_append f.1 _ hf1]
      simp only
      rw [takeStr_append f.2 _ hf2]
      simp only
      rw [ih fuel0 (by simp) hm2 hfuel2]
      simp

theorem parse_stringify (m : JObj) (hplain : jsonPlainObj m = true) :
    parseObj (stringifyObj m) = some m := by
  cases m with
  | nil => rfl
  | cons f m2 =>
    have hhead : ∃ tl, encodeFields (f :: m2) = quoteC :: tl := by
      cases m2 with
      | nil => exact ⟨_, rfl⟩
      | cons g m3 => exact ⟨_, rfl⟩
    obtain ⟨tl, htl⟩ := hhead
    have hne : encodeFields (f :: m2) ++ [rbraceC] ≠ [rbraceC] := by
      rw [htl]
      intro hcontra
      have hq : quoteC = rbraceC := List.head_eq_of_cons_eq hcontra
      simp [quoteC, rbraceC] at hq
    have hlen : (f :: m2).length ≤ (encodeFields (f :: m2) ++ [rbraceC]).length := by
      have h := encodeFields_length_ge (f :: m2)
      rw [List.length_append]
      omega
    simp only [stringifyObj, parseObj, if_pos rfl, if_neg hne]
    exact parseFieldsF_encode (f :: m2) _ (by simp) hplain hlen

/-! ## Claim theorems -/

/-- C1: the claim states that `getMessages` with `selectBy.last = false`
returns an empty list even when the thread has messages, with a number `n`
capping the result at `n` and a default cap of 100 otherwise.  The code
violates the sentinel: `getMessages` computes its limit inline as
`typeof last === "number" ? last : 100`, never calling the class's own
`resolveMessageLimit` helper, so `last = false` (and also `last = 0`,
through the `options?.limit || 100` default of `getMessagesByThreadId`)
returns up to 100 messages.  This theorem evaluates the embedding at the
failing input: a thread with one message. -/
theorem c1_last_false_sentinel_ignored :
    getMessages gOneMsg "t1" MessageLast.fls = [msgA]
    ∧ resolveMessageLimit MessageLast.fls 100 = 0
    ∧ getMessages gOneMsg "t1" (MessageLast.num 0) = [msgA]
    ∧ getMessages gOneMsg "t1" (MessageLast.num 1) = [msgA]
    ∧ getMessages gOneMsg "t1" MessageLast.undef = [msgA] := by
  refine ⟨by decide, rfl, by decide, by decide, by decide⟩

/-- C2: upserting the same `(type, value)` entity key with confidences `c1`
then `c2` (either order) into a store that does not yet hold the key leaves
the stored confidence at `max c1 c2`, and an upsert onto an existing entry
never lowers the stored confidence. -/
theorem c2_entity_confidence_monotone :
    (∀ (s : EStore) (k : EntityKey) (c1 c2 : ℚ), lookupE s k = none →
      lookupE (upsertEntity (upsertEntity s k c1) k c2) k = some (max c1 c2)
      ∧ lookupE (upsertEntity (upsertEntity s k c2) k c1) k = some (max c1 c2))
    ∧ (∀ (s : EStore) (k : EntityKey) (c o : ℚ), lookupE s k = some o →
      ∃ n, lookupE (upsertEntity s k c) k = some n ∧ o ≤ n) := by
  constructor
  · intro s k c1 c2 h
    have h1 := lookupE_upsertEntity_self s k c1
    have h2 := lookupE_upsertEntity_self s k c2
    rw [h] at h1 h2
    have g1 := lookupE_upsertEntity_self (upsertEntity s k c1) k c2
    have g2 := lookupE_upsertEntity_self (upsertEntity s k c2) k c1
    rw [h1] at g1
    rw [h2] at g2
    simp only at g1 g2
    rw [mergeConf_eq_max] at g1
    rw [mergeConf_eq_max] at g2
    rw [max_comm] at g2
    exact ⟨g1, g2⟩
  · intro s k c o h
    have h1 := lookupE_upsertEntity_self s k c
    rw [h] at h1
    simp only at h1
    refine ⟨mergeConf o c, h1, ?_⟩
    rw [mergeConf_eq_max]
    exact le_max_left o c

/-- C2 witness: concrete instance of the monotone-merge theorem at the
`(Person, Dawn)` key with confidences 0.6 and 0.9. -/
theorem c2_entity_confidence_monotone_witness :
    lookupE (upsertEntity (upsertEntity [] ("Person", "Dawn") conf06) ("Person", "Dawn") conf09)
      ("Person", "Dawn") = some (max conf06 conf09)
    ∧ ∃ n, lookupE (upsertEntity [(("Person", "Dawn"), conf09)] ("Person", "Dawn") conf06)
      ("Person", "Dawn") = some n ∧ conf09 ≤ n := by
  exact ⟨(c2_entity_confidence_monotone.1 [] ("Person", "Dawn") conf06 conf09 rfl).1,
    c2_entity_confidence_monotone.2 [(("Person", "Dawn"), conf09)] ("Person", "Dawn")
      conf06 conf09 rfl⟩

/-- C3: with fewer than two entities no relation edge is written; the label
table is directional (`Person/Topic → INTERESTED_IN`, `Person/Technology →
USES`, `Topic/Technology → IMPLEMENTS`, every other ordered combination
including the swapped ones `RELATED_TO`); every pair `i < j` in extraction
order ends up merged with confidence at least the min of the two entity
confidences; and a repeated merge of the same edge key never lowers the
stored confidence. -/
theorem c3_relationship_pairs :
    (∀ (s : RStore) (es : List ExtractedEntity), es.length < 2 →
      createEntityRelationships s es = s)
    ∧ relationshipType "Person" "Topic" = "INTERESTED_IN"
    ∧ relationshipType "Person" "Technology" = "USES"
    ∧ relationshipType "Topic" "Technology" = "IMPLEMENTS"
    ∧ relationshipType "Topic" "Person" = "RELATED_TO"
    ∧ relationshipType "Technology" "Person" = "RELATED_TO"
    ∧ relationshipType "Technology" "Topic" = "RELATED_TO"
    ∧ (∀ t1 t2 : String,
        ¬(t1 = "Person" ∧ t2 = "Topic") → ¬(t1 = "Person" ∧ t2 = "Technology") →
        ¬(t1 = "Topic" ∧ t2 = "Technology") → relationshipType t1 t2 = "RELATED_TO")
    ∧ (∀ (s : RStore) (es : List ExtractedEntity) (i j : Nat) (hij : i < j)
        (hj : j < es.length),
        ∃ c, lookupR (createEntityRelationships s es)
            (relKeyOf (es.get ⟨i, lt_trans hij hj⟩) (es.get ⟨j, hj⟩)) = some c
          ∧ min (es.get ⟨i, lt_trans hij hj⟩).confidence (es.get ⟨j, hj⟩).confidence ≤ c)
    ∧ (∀ (s : RStore) (k : RelKey) (c o : ℚ), lookupR s k = some o →
        ∃ n, lookupR (mergeRel s k c) k = some n ∧ o ≤ n) := by
  refine ⟨?_, rfl, rfl, rfl, rfl, rfl, rfl, ?_, ?_, ?_⟩
  · intro s es h
    simp [createEntityRelationships, h]
  · intro t1 t2 h1 h2 h3
    simp only [relationshipType, if_neg h1, if_neg h2, if_neg h3]
  · intro s es i j hij hj
    have hlen : ¬es.length < 2 := by omega
    rw [createEntityRelationships, if_neg hlen]
    exact lookupR_foldl_mem (pairsOf es) s _ (pairsOf_mem_of_lt es i j hij hj)
  · intro s k c o h
    exact lookupR_mergeRel_mono s k k c o h

/-- C3 witness: concrete instances — a singleton entity list writes
nothing, the scenario pair is merged with at least min confidence, a
swapped combination gives `RELATED_TO`, and a repeated merge never lowers
the stored confidence. -/
theorem c3_relationship_pairs_witness :
    createEntityRelationships [] [dawnPerson] = []
    ∧ relationshipType "Question" "Person" = "RELATED_TO"
    ∧ (∃ c, lookupR (createEntityRelationships [] [dawnPerson, dawnTopic])
        (relKeyOf dawnPerson dawnTopic) = some c
        ∧ min dawnPerson.confidence dawnTopic.confidence ≤ c)
    ∧ (∃ n, lookupR (mergeRel [((("a", "b"), ("c", "d"), "RELATED_TO"), conf06)]
        (("a", "b"), ("c", "d"), "RELATED_TO") conf08)
        (("a", "b"), ("c", "d"), "RELATED_TO") = some n ∧ conf06 ≤ n) := by
  obtain ⟨hA, _, _, _, _, _, _, hH, hI, hJ⟩ := c3_relationship_pairs
  exact ⟨hA [] [dawnPerson] (by decide),
    hH "Question" "Person" (by decide) (by decide) (by decide),
    hI [] [dawnPerson, dawnTopic] 0 1 (by decide) (by decide),
    hJ [((("a", "b"), ("c", "d"), "RELATED_TO"), conf06)]
      (("a", "b"), ("c", "d"), "RELATED_TO") conf08 conf06 rfl⟩

/-- C4 counterexample: the claim says a failure on one relationship pair
does not prevent the remaining pairs from being attempted.  In the code the
`try/catch` of `createEntityRelationships` wraps the whole double loop, so
with three entities and a failure on the first pair (0,1), the pairs (0,2)
and (1,2) are never attempted — while the message write itself still
succeeds. -/
theorem c4_pair_loop_abort_counterexample :
    failR01 0 1 = true
    ∧ (0, 2) ∈ pairsOf (List.range 3)
    ∧ (1, 2) ∈ pairsOf (List.range 3)
    ∧ WOp.relW 0 2 ∉ (createMessageRun 3 false failR01).1
    ∧ WOp.relW 1 2 ∉ (createMessageRun 3 false failR01).1
    ∧ (createMessageRun 3 false failR01).2 = true := by decide

/-- C4 amended: entity and relationship failures never abort the message
creation; the message and containment write precede all entity linking;
every entity write is attempted regardless of failures (the catch is per
entity); but the relationship catch is per loop — the first failing pair is
the last pair attempted, and only when no pair fails are all pairs
attempted. -/
theorem c4_partial_failure_isolation :
    (∀ (n : Nat) (failR : Nat → Nat → Bool), (createMessageRun n false failR).2 = true)
    ∧ (∀ (n i : Nat) (failR : Nat → Nat → Bool), i < n →
        WOp.entityW i ∈ (createMessageRun n false failR).1)
    ∧ (∀ (n : Nat) (failR : Nat → Nat → Bool),
        ((createMessageRun n false failR).1).take 2 = [WOp.mergeThread, WOp.createMsg])
    ∧ (∀ (p : Nat × Nat) (ps : List (Nat × Nat)) (failR : Nat → Nat → Bool),
        failR p.1 p.2 = true → relAttempts failR (p :: ps) = [p])
    ∧ (∀ (ps : List (Nat × Nat)) (failR : Nat → Nat → Bool),
        (∀ p ∈ ps, failR p.1 p.2 = false) → relAttempts failR ps = ps) := by
  refine ⟨?_, ?_, ?_, ?_, ?_⟩
  · intro n failR
    simp [createMessageRun]
  · intro n i failR h
    simp only [createMessageRun, if_neg (Bool.false_ne_true)]
    apply List.mem_append_left
    apply List.mem_append_right
    exact List.mem_map.mpr ⟨i, List.mem_range.mpr h, rfl⟩
  · intro n failR
    simp [createMessageRun]
  · intro p ps failR h
    simp [relAttempts, h]
  · intro ps failR h
    induction ps with
    | nil => rfl
    | cons p rest ih =>
      have hp : failR p.1 p.2 = false := h p (List.mem_cons_self p rest)
      have hrest : ∀ q ∈ rest, failR q.1 q.2 = false :=
        fun q hq => h q (List.mem_cons_of_mem p hq)
      simp [relAttempts, hp, ih hrest]

/-- C4 witness: concrete instances of the amended isolation theorem. -/
theorem c4_partial_failure_isolation_witness :
    WOp.entityW 1 ∈ (createMessageRun 3 false failR01).1
    ∧ relAttempts failR01 [(0, 1), (0, 2)] = [(0, 1)]
    ∧ relAttempts (fun _ _ => false) [(0, 1), (0, 2), (1, 2)] = [(0, 1), (0, 2), (1, 2)] := by
  obtain ⟨h1, h2, h3, h4, h5⟩ := c4_partial_failure_isolation
  exact ⟨h2 3 1 failR01 (by decide), h4 (0, 1) [(0, 2)] failR01 (by decide),
    h5 [(0, 1), (0, 2), (1, 2)] (fun _ _ => false) (by decide)⟩

/-- C5: `deleteThreadById` leaves every message node, every mention edge and
the retrievability of every message by id unchanged; only thread nodes with
the deleted id (and their containment edges) disappear. -/
theorem c5_delete_thread_noncascade :
    ∀ (g : Graph) (tid : String),
      (deleteThreadById g tid).messages = g.messages
      ∧ (deleteThreadById g tid).mentions = g.mentions
      ∧ (∀ t ∈ (deleteThreadById g tid).threads, t.id ≠ tid)
      ∧ (∀ ids : List String,
          getMessagesById (deleteThreadById g tid) ids = getMessagesById g ids) := by
  intro g tid
  refine ⟨rfl, rfl, ?_, fun ids => rfl⟩
  intro t ht
  have hmem := List.mem_filter.mp ht
  simpa using hmem.2

/-- C5 witness: deleting thread `t1` from the one-message graph keeps `m1`
retrievable by id. -/
theorem c5_delete_thread_noncascade_witness :
    (deleteThreadById gOneMsg "t1").messages = [msgA]
    ∧ getMessagesById (deleteThreadById gOneMsg "t1") ["m1"] = getMessagesById gOneMsg ["m1"]
    ∧ getMessagesById gOneMsg ["m1"] = [msgA]
    ∧ (deleteThreadById gOneMsg "t1").threads = [] := by
  have h := c5_delete_thread_noncascade gOneMsg "t1"
  exact ⟨h.1, h.2.2.2 ["m1"], by decide, by decide⟩

/-- C6: a set flag makes `initialize` a statement-free no-op; with all five
statements succeeding the flag is set and the statements run in order; the
flag equals all-statements-succeeded (so any failure leaves it unset and
the failure propagates); and with the flag unset at least one statement is
always issued (a subsequent call re-runs). -/
theorem c6_initialize_idempotent :
    (∀ fail : SchemaStmt → Bool, initializeOp true fail = (true, [], true))
    ∧ (∀ fail : SchemaStmt → Bool, (∀ s, fail s = false) →
        initializeOp false fail = (true, initStatements, true))
    ∧ (∀ fail : SchemaStmt → Bool,
        (initializeOp false fail).1 = (initStatements.all fun s => !fail s))
    ∧ (∀ fail : SchemaStmt → Bool,
        (initializeOp false fail).2.2 = (initStatements.all fun s => !fail s))
    ∧ initStatements.length = 5
    ∧ (∀ fail : SchemaStmt → Bool, (initializeOp false fail).2.1 ≠ []) := by
  refine ⟨fun fail => rfl, ?_, ?_, ?_, rfl, ?_⟩
  · intro fail h
    have hall : (initStatements.all fun s => !fail s) = true := by
      simp [List.all_eq_true, h]
    have hfst := runStmts_fst_of_ok fail initStatements (fun s _ => h s)
    have hsnd := runStmts_snd fail initStatements
    rw [hall] at hsnd
    simp [initializeOp, hfst, hsnd]
  · intro fail
    simp [initializeOp, runStmts_snd]
  · intro fail
    simp [initializeOp, runStmts_snd]
  · intro fail
    cases h : fail SchemaStmt.threadIdUnique <;>
      simp [initializeOp, initStatements, runStmts, h]

/-- C6 witness: concrete no-op and all-success runs. -/
theorem c6_initialize_idempotent_witness :
    initializeOp true (fun _ => true) = (true, [], true)
    ∧ initializeOp false (fun _ => false) = (true, initStatements, true) := by
  obtain ⟨h1, h2, _, _, _, _⟩ := c6_initialize_idempotent
  exact ⟨h1 (fun _ => true), h2 (fun _ => false) (fun s => rfl)⟩

/-- C7 counterexample: the claim says every session-acquiring operation,
including the health probe, releases its session on every exit path.  In
`healthCheck` the close is a plain statement inside the `try`, so when the
probe query throws the catch returns `false` with the session never
closed. -/
theorem c7_healthcheck_leak_counterexample :
    (healthCheckRun true).2 = false
    ∧ sessionBalanced (healthCheckRun true).1 = false := by decide

/-- C7 amended: operations using the `try/finally` pattern (`getThreadById`
as the modelled representative) balance acquire and close on success,
not-found and failure paths alike, and `healthCheck` never propagates a
failure; but `healthCheck` balances its session only on the success path. -/
theorem c7_session_release_amended :
    (∀ failRun found : Bool, sessionBalanced (getThreadByIdRun failRun found).1 = true)
    ∧ (∀ failRun : Bool, (healthCheckRun failRun).2 = !failRun)
    ∧ sessionBalanced (healthCheckRun false).1 = true := by
  refine ⟨?_, ?_, by decide⟩
  · intro failRun found
    cases failRun <;> cases found <;> decide
  · intro failRun
    cases failRun <;> decide

/-- C8: on the text `Hi, my name is Dawn and I love graph databases.` the
extractor yields exactly `(Person, Dawn, 0.9)` and
`(Topic, graph databases, 0.8)`.  The technology vocabulary match does not
fire: `graph database` and `database` are followed by the word character
`s` in `databases`, so the trailing word boundary of the pattern fails —
the claim's conditional Technology entity is correctly absent.  The writer
then creates one mention edge per yielded entity, and the single pair gets
the `INTERESTED_IN` label from Person to Topic with confidence
`min(0.9, 0.8) = 0.8`. -/
theorem c8_dawn_extraction_scenario :
    extractEntities dawnText = [dawnPerson, dawnTopic]
    ∧ dawnPerson.confidence = 9/10
    ∧ dawnTopic.confidence = 4/5
    ∧ techMatches dawnText = []
    ∧ mentionEdges "m1" (extractEntities dawnText)
        = [("m1", ("Person", "Dawn"), conf09), ("m1", ("Topic", "graph databases"), conf08)]
    ∧ pairsOf (extractEntities dawnText) = [(dawnPerson, dawnTopic)]
    ∧ relationshipType dawnPerson.type dawnTopic.type = "INTERESTED_IN"
    ∧ lookupR (createEntityRelationships [] (extractEntities dawnText))
        (relKeyOf dawnPerson dawnTopic) = some conf08 := by
  refine ⟨by decide, ?_, ?_, by decide, by decide, by decide, by decide, by decide⟩
  · simp only [dawnPerson, conf09, Rat.mk'_eq_divInt, Rat.divInt_eq_div]
    norm_num
  · simp only [dawnTopic, conf08, Rat.mk'_eq_divInt, Rat.divInt_eq_div]
    norm_num

/-- C9 counterexample: the claim quantifies over every thread created with
a metadata map, but `createThread` stores caller-supplied timestamps
unchanged, so a caller passing `createdAt = 5, updatedAt = 3` produces a
read-back thread with `createdAt > updatedAt` (its metadata still round
trips). -/
theorem c9_roundtrip_counterexample :
    (mapNeo4jNodeToThread (createThreadNode 0 "gen" badThreadInput)).metadata = some fooBarMeta
    ∧ ¬((mapNeo4jNodeToThread (createThreadNode 0 "gen" badThreadInput)).createdAt
        ≤ (mapNeo4jNodeToThread (createThreadNode 0 "gen" badThreadInput)).updatedAt) := by
  constructor
  · decide
  · decide

/-- C9 amended: for every thread whose metadata uses characters
`JSON.stringify` leaves unescaped and whose caller-supplied timestamps (if
any; both default to `now`) are in order, creating the thread and reading
it back by id yields the mapped node, its metadata parses back to the map
that was written, and `createdAt ≤ updatedAt`. -/
theorem c9_thread_roundtrip_amended :
    ∀ (g : Graph) (now : Int) (freshId : String) (t : ThreadInput),
      jsonPlainObj (t.metadata.getD []) = true →
      t.createdAt.getD now ≤ t.updatedAt.getD now →
      (∀ th ∈ g.threads, th.id ≠ (createThreadNode now freshId t).id) →
      getThreadByIdG (createThreadG g now freshId t).1 (createThreadNode now freshId t).id
        = some (mapNeo4jNodeToThread (createThreadNode now freshId t))
      ∧ (mapNeo4jNodeToThread (createThreadNode now freshId t)).metadata
        = some (t.metadata.getD [])
      ∧ (mapNeo4jNodeToThread (createThreadNode now freshId t)).createdAt
        ≤ (mapNeo4jNodeToThread (createThreadNode now freshId t)).updatedAt := by
  intro g now freshId t hplain hts hfresh
  refine ⟨?_, ?_, ?_⟩
  · have hall : ∀ x ∈ g.threads,
        (fun th => (th.id = (createThreadNode now freshId t).id : Bool)) x = false := by
      intro x hx
      simpa using hfresh x hx
    have hfind := find?_append_single g.threads (createThreadNode now freshId t)
      (fun th => (th.id = (createThreadNode now freshId t).id : Bool)) hall
    show ((g.threads ++ [createThreadNode now freshId t]).find?
        (fun th => (th.id = (createThreadNode now freshId t).id : Bool))).map
        mapNeo4jNodeToThread
      = some (mapNeo4jNodeToThread (createThreadNode now freshId t))
    rw [hfind]
    simp
  · have hne : (createThreadNode now freshId t).metadata ≠ "" := by
      intro hcontra
      have hdata := congrArg String.data hcontra
      simp [createThreadNode, strOf, stringifyObj] at hdata
    show (if (createThreadNode now freshId t).metadata = "" then some []
          else parseObj (createThreadNode now freshId t).metadata.toList)
        = some (t.metadata.getD [])
    rw [if_neg hne]
    exact parse_stringify (t.metadata.getD []) hplain
  · exact hts

/-- C9 witness: the `metadata = ⦃foo ↦ bar⦄` scenario with timestamps left
to default. -/
theorem c9_thread_roundtrip_witness :
    getThreadByIdG (createThreadG gEmpty 0 "gen" goodThreadInput).1 "t1"
      = some (mapNeo4jNodeToThread (createThreadNode 0 "gen" goodThreadInput))
    ∧ (mapNeo4jNodeToThread (createThreadNode 0 "gen" goodThreadInput)).metadata
      = some fooBarMeta
    ∧ (mapNeo4jNodeToThread (createThreadNode 0 "gen" goodThreadInput)).createdAt
      ≤ (mapNeo4jNodeToThread (createThreadNode 0 "gen" goodThreadInput)).updatedAt := by
  have h := c9_thread_roundtrip_amended gEmpty 0 "gen" goodThreadInput (by decide)
    (by decide) (by intro th hth; simp [gEmpty] at hth)
  exact ⟨h.1, h.2.1, h.2.2⟩

/-- C10: every update operation filters the `"id"` key out of the updates
object before building its `SET` clause, so the stored record keeps its id
under `updateThread`, `updateMessage` and `updateResource` for every
updates object (including ones that contain an `"id"` entry). -/
theorem c10_update_preserves_id :
    ∀ (p : PropRec) (now : Int) (us : PropRec),
      getProp (updateThreadSet p now us) "id" = getProp p "id"
      ∧ getProp (updateMessageSet p us) "id" = getProp p "id"
      ∧ getProp (updateResourceSet p now us) "id" = getProp p "id" := by
  intro p now us
  have hset := getProp_applySet_ne (filterIdKey us) p "id" (filterIdKey_no_id us)
  refine ⟨?_, hset, ?_⟩
  · show getProp (setProp (applySet p (filterIdKey us)) "updatedAt" (PVal.n now)) "id"
      = getProp p "id"
    rw [getProp_setProp_ne _ _ _ _ (by decide), hset]
  · show getProp (setProp (applySet p (filterIdKey us)) "updatedAt" (PVal.n now)) "id"
      = getProp p "id"
    rw [getProp_setProp_ne _ _ _ _ (by decide), hset]
